import Mathlib

/-!
# Verification of the timeline recomposition engine (`src/lib/video-export.ts`)

Shallow embedding of the two export entry points `exportVideoWithFrames`
(filter-graph strategy) and `exportVideoSimple` (segment-concat strategy).

Times are modelled as rationals (`ℚ`): the source manipulates JS numbers at
millisecond granularity and every comparison/arithmetic operation the code
performs is exact on the values that occur.  Optional JS fields are `Option`,
and the JS `x || y` fallback (which treats both `undefined` and `0` as falsy)
is embedded explicitly.

`Array.prototype.sort` is required by the ECMAScript standard (ES2019 and
later) to be stable, and the comparator used by the code is
`(a, b) => a.timestamp - b.timestamp`; the resulting list is therefore the
unique stable sort of the input by ascending timestamp, which we embed as
`List.insertionSort` on the timestamp order (insertion sort is stable, proved
in `sortFrames_filter_eq` below).
-/

namespace VideoExport

/-- Embedding of the `InsertFrame` interface: a timestamped still image to be
inserted into the video.  `duration`, `width` and `height` are optional in the
source (`duration?: number` etc.). -/
structure InsertFrame where
  timestamp : ℚ
  imageData : String
  duration : Option ℚ := none
  width : Option ℕ := none
  height : Option ℕ := none
deriving DecidableEq

/-- Embedding of the `ExportConfig` interface.  Fields that carry a
destructuring default in the source (`outputFileName`, `imageDuration`) or are
optional (`videoWidth`, `videoHeight`, `videoDuration`) are `Option`s here;
the defaulting is applied by the accessor functions below, exactly as the
destructuring `const { imageDuration = 2, ... } = config` does. -/
structure ExportConfig where
  videoUrl : String
  frames : List InsertFrame
  outputFileName : Option String := none
  imageDuration : Option ℚ := none
  videoWidth : Option ℕ := none
  videoHeight : Option ℕ := none
  videoDuration : Option ℚ := none
deriving DecidableEq

/-- `Math.max` on rationals (used as `Math.max(videoDuration - lastCutTime, 0)`
at line 390). -/
def jsMax (a b : ℚ) : ℚ := if a ≤ b then b else a

/-- JS `x || y` on an optional rational: `undefined` and `0` are falsy.
This embeds `frame.duration || imageDuration` (lines 177 and 339). -/
def jsOrQ : Option ℚ → ℚ → ℚ
  | none, d => d
  | some x, d => if x = 0 then d else x

/-- JS `x || y` on an optional natural number: `undefined` and `0` are falsy.
This embeds `videoWidth || 1280` and `videoHeight || 720`. -/
def jsOrNat : Option ℕ → ℕ → ℕ
  | none, d => d
  | some x, d => if x = 0 then d else x

/-- JS truthiness of an optional number (`videoDuration` tests at lines 383
and 389): `undefined` and `0` are falsy, everything else truthy. -/
def jsTruthy : Option ℚ → Bool
  | none => false
  | some x => decide (x ≠ 0)

/-- `const { outputFileName = 'itgen_video.mp4' } = config`. -/
def ExportConfig.outName (c : ExportConfig) : String :=
  c.outputFileName.getD "itgen_video.mp4"

/-- `const { imageDuration = 2 } = config` (destructuring default: applied
only when the field is absent, a present `0` is kept). -/
def ExportConfig.imgDur (c : ExportConfig) : ℚ :=
  c.imageDuration.getD 2

/-- `const targetWidth = videoWidth || 1280` (lines 170 and 331). -/
def ExportConfig.targetW (c : ExportConfig) : ℕ :=
  jsOrNat c.videoWidth 1280

/-- `const targetHeight = videoHeight || 720` (lines 171 and 332). -/
def ExportConfig.targetH (c : ExportConfig) : ℕ :=
  jsOrNat c.videoHeight 720

/-- Timestamp order used by the sort comparator
`(a, b) => a.timestamp - b.timestamp`. -/
def tsLE (a b : InsertFrame) : Prop := a.timestamp ≤ b.timestamp

instance : DecidableRel tsLE := fun a b =>
  inferInstanceAs (Decidable (a.timestamp ≤ b.timestamp))

instance : IsTotal InsertFrame tsLE :=
  ⟨fun a b => le_total a.timestamp b.timestamp⟩

instance : IsTrans InsertFrame tsLE :=
  ⟨fun _ _ _ hab hbc => le_trans hab hbc⟩

/-- `const sortedFrames = [...frames].sort((a, b) => a.timestamp - b.timestamp)`
(lines 127 and 299).  ES2019 `Array.prototype.sort` is stable, so the result
is the stable sort of `frames` by ascending timestamp, embedded as insertion
sort. -/
def sortFrames (l : List InsertFrame) : List InsertFrame :=
  List.insertionSort tsLE l

/-- One segment of the derived edit decision list.  A `source` segment cuts
the original media from `start` to `stop` (`stop = none` means "to the end of
the source", i.e. a `trim=start=...` / `-ss ...` with no end bound).  An
`insert` segment shows a still image for `duration` seconds scaled/padded to
`width × height`. -/
inductive Segment where
  | source (start : ℚ) (stop : Option ℚ)
  | insert (image : String) (duration : ℚ) (width height : ℕ)
deriving DecidableEq

/-- The per-event loop shared by both export functions (lines 173–208 and
335–380): for each frame, if its timestamp is strictly greater than the
cursor, first emit the source segment from the cursor to the timestamp, then
emit the insert segment for the frame, then move the cursor to the frame's
timestamp. -/
def edlLoop (tw th : ℕ) (imgDur : ℚ) : ℚ → List InsertFrame → List Segment
  | _, [] => []
  | lt, f :: rest =>
    (if lt < f.timestamp then [Segment.source lt (some f.timestamp)] else [])
      ++ Segment.insert f.imageData (jsOrQ f.duration imgDur) tw th
        :: edlLoop tw th imgDur f.timestamp rest

/-- The cursor value (`lastTime` / `lastCutTime`) after the loop has consumed
the given frames. -/
def cursorAfter (lt : ℚ) : List InsertFrame → ℚ
  | [] => lt
  | f :: rest => cursorAfter f.timestamp rest

/-- Guard of the trailing-segment emission in `exportVideoSimple` (line 383):
`if (!videoDuration || lastCutTime < videoDuration - 0.001)`. -/
def trailingCond (dur : Option ℚ) (lt : ℚ) : Bool :=
  !(jsTruthy dur) || decide (lt < dur.getD 0 - 1/1000)

/-- Trailing segment of `exportVideoSimple` (lines 382–402): emitted under
`trailingCond`; when `videoDuration` is truthy the segment gets the explicit
length `Math.max(videoDuration - lastCutTime, 0)` (line 390), otherwise it
runs to the end of the source. -/
def trailingSimple (dur : Option ℚ) (lt : ℚ) : List Segment :=
  if trailingCond dur lt then
    [Segment.source lt
      (if jsTruthy dur then some (lt + jsMax (dur.getD 0 - lt) 0) else none)]
  else []

/-- The edit decision list produced by `exportVideoSimple` (segment-concat
strategy, lines 328–402): sort, run the cursor loop, then emit the guarded
trailing segment. -/
def edlSimple (cfg : ExportConfig) : List Segment :=
  edlLoop cfg.targetW cfg.targetH cfg.imgDur 0 (sortFrames cfg.frames)
    ++ trailingSimple cfg.videoDuration (cursorAfter 0 (sortFrames cfg.frames))

/-- The edit decision list produced by `exportVideoWithFrames` (filter-graph
strategy, lines 165–222): same sort and cursor loop, but the trailing segment
`[0:v]trim=start=lastTime` (lines 212–218) is emitted unconditionally and has
no end bound (the configured `videoDuration` is never read there). -/
def edlFrames (cfg : ExportConfig) : List Segment :=
  edlLoop cfg.targetW cfg.targetH cfg.imgDur 0 (sortFrames cfg.frames)
    ++ [Segment.source (cursorAfter 0 (sortFrames cfg.frames)) none]

/-- Duration contributed by one segment, resolving a deferred end bound
against the actual source duration. -/
def segDuration (srcDur : ℚ) : Segment → ℚ
  | .source s (some e) => e - s
  | .source s none => srcDur - s
  | .insert _ d _ _ => d

/-- Total duration of the recomposed timeline. -/
def planDuration (srcDur : ℚ) (edl : List Segment) : ℚ :=
  (edl.map (segDuration srcDur)).sum

/-- Resolve a deferred end bound against the actual source duration. -/
def resolveStop (srcDur : ℚ) : Segment → Segment
  | .source s none => .source s (some srcDur)
  | seg => seg

/-- The concrete input of spec §8's worked example: source duration 10 s,
events `[{t:3,d:2},{t:3,d:1},{t:8,d:2}]`. -/
def cfgExample : ExportConfig :=
  { videoUrl := "v"
    frames := [⟨3, "A", some 2, none, none⟩, ⟨3, "B", some 1, none, none⟩,
               ⟨8, "C", some 2, none, none⟩]
    videoDuration := some 10 }

/-- Claim C1: for source duration 10 s and events
`[{t:3,d:2},{t:3,d:1},{t:8,d:2}]`, the segment sequence produced by the
EDL-building loop, in both render strategies, is exactly Source(0,3),
Insert(2s), Insert(1s), Source(3,8), Insert(2s), Source(8,10) — six segments
with total plan duration 15 s.  (In the filter-graph strategy the trailing
segment's end bound is deferred to the engine; resolving it against the 10 s
source yields the same six segments.) -/
theorem c1_edl_example :
    edlSimple cfgExample =
      [Segment.source 0 (some 3),
       Segment.insert "A" 2 1280 720,
       Segment.insert "B" 1 1280 720,
       Segment.source 3 (some 8),
       Segment.insert "C" 2 1280 720,
       Segment.source 8 (some 10)]
    ∧ (edlFrames cfgExample).map (resolveStop 10) = edlSimple cfgExample
    ∧ planDuration 10 (edlSimple cfgExample) = 15
    ∧ planDuration 10 (edlFrames cfgExample) = 15 := by
  refine ⟨?_, ?_, ?_, ?_⟩ <;>
    norm_num [edlSimple, edlFrames, edlLoop, sortFrames, List.insertionSort,
      List.orderedInsert, cursorAfter, trailingSimple, trailingCond, jsTruthy,
      jsOrQ, jsMax, jsOrNat, ExportConfig.targetW, ExportConfig.targetH,
      ExportConfig.imgDur, cfgExample, tsLE, resolveStop, planDuration, segDuration]

/-! ## Generic lemmas about the sort and the EDL loop -/

/-- The sort is a permutation of its input. -/
theorem sortFrames_perm (l : List InsertFrame) : List.Perm (sortFrames l) l :=
  List.perm_insertionSort tsLE l

/-- Stability of `orderedInsert`, positive case: inserting an element of the
selected timestamp class puts it in front of every other member of the class. -/
theorem filter_orderedInsert_pos (p : InsertFrame → Bool) (x : InsertFrame)
    (hx : p x = true) (h : ∀ y, p y = true → tsLE x y) :
    ∀ s : List InsertFrame,
      (List.orderedInsert tsLE x s).filter p = x :: s.filter p := by
  intro s
  induction s with
  | nil => simp [List.orderedInsert, hx]
  | cons y ys ih =>
    by_cases hxy : tsLE x y
    · simp [List.orderedInsert, hxy, List.filter_cons, hx]
    · have hy : p y = false := by
        cases hpy : p y
        · rfl
        · exact absurd (h y hpy) hxy
      simp [List.orderedInsert, hxy, List.filter_cons, hy, ih]

/-- Stability of `orderedInsert`, negative case: inserting an element outside
the selected class leaves the class's subsequence unchanged. -/
theorem filter_orderedInsert_neg (p : InsertFrame → Bool) (x : InsertFrame)
    (hx : p x = false) :
    ∀ s : List InsertFrame,
      (List.orderedInsert tsLE x s).filter p = s.filter p := by
  intro s
  induction s with
  | nil => simp [List.orderedInsert, hx]
  | cons y ys ih =>
    by_cases hxy : tsLE x y
    · simp [List.orderedInsert, hxy, List.filter_cons, hx]
    · simp [List.orderedInsert, hxy, List.filter_cons, ih]

/-- Stability of the sort: the subsequence of events carrying any fixed
timestamp is returned in its original input order. -/
theorem sortFrames_filter_eq (l : List InsertFrame) (t : ℚ) :
    (sortFrames l).filter (fun f => decide (f.timestamp = t))
      = l.filter (fun f => decide (f.timestamp = t)) := by
  induction l with
  | nil => rfl
  | cons x xs ih =>
    show (List.orderedInsert tsLE x (sortFrames xs)).filter _ = _
    by_cases hx : x.timestamp = t
    · rw [filter_orderedInsert_pos _ x (by simp [hx])
        (fun y hy => by
          simp only [decide_eq_true_eq] at hy
          exact le_of_eq (hx.trans hy.symm)), ih]
      simp [List.filter_cons, hx]
    · rw [filter_orderedInsert_neg _ x (by simp [hx]), ih]
      simp [List.filter_cons, hx]

/-- The cursor after a concatenation. -/
theorem cursorAfter_append :
    ∀ (l1 l2 : List InsertFrame) (lt : ℚ),
      cursorAfter lt (l1 ++ l2) = cursorAfter (cursorAfter lt l1) l2 := by
  intro l1
  induction l1 with
  | nil => intro l2 lt; rfl
  | cons f rest ih => intro l2 lt; simp [cursorAfter, ih]

/-- The cursor after the loop is the timestamp of the last processed frame. -/
theorem cursorAfter_concat (l : List InsertFrame) (f : InsertFrame) (lt : ℚ) :
    cursorAfter lt (l ++ [f]) = f.timestamp := by
  rw [cursorAfter_append]; rfl

/-- The EDL loop splits over a concatenation, resuming from the cursor. -/
theorem edlLoop_append (tw th : ℕ) (d : ℚ) :
    ∀ (l1 l2 : List InsertFrame) (lt : ℚ),
      edlLoop tw th d lt (l1 ++ l2)
        = edlLoop tw th d lt l1 ++ edlLoop tw th d (cursorAfter lt l1) l2 := by
  intro l1
  induction l1 with
  | nil => intro l2 lt; simp [edlLoop, cursorAfter]
  | cons f rest ih => intro l2 lt; simp [edlLoop, cursorAfter, ih]

/-- Every processed frame contributes its own insert segment to the loop's
output. -/
theorem insert_mem_edlLoop (tw th : ℕ) (d : ℚ) :
    ∀ (l : List InsertFrame) (lt : ℚ) (f : InsertFrame), f ∈ l →
      Segment.insert f.imageData (jsOrQ f.duration d) tw th
        ∈ edlLoop tw th d lt l := by
  intro l
  induction l with
  | nil => intro lt f hf; cases hf
  | cons g rest ih =>
    intro lt f hf
    rcases List.mem_cons.mp hf with h | h
    · subst h
      exact List.mem_append_right _ (List.mem_cons_self _ _)
    · exact List.mem_append_right _
        (List.mem_cons_of_mem _ (ih g.timestamp f h))

/-- Every insert segment emitted by the loop carries the export-level target
dimensions. -/
theorem edlLoop_insert_dims (tw th : ℕ) (d : ℚ) :
    ∀ (l : List InsertFrame) (lt : ℚ) (img : String) (dd : ℚ) (w hh : ℕ),
      Segment.insert img dd w hh ∈ edlLoop tw th d lt l → w = tw ∧ hh = th := by
  intro l
  induction l with
  | nil => intro lt img dd w hh hm; cases hm
  | cons g rest ih =>
    intro lt img dd w hh hm
    by_cases hc : lt < g.timestamp <;> simp [edlLoop, hc] at hm
    · rcases hm with ⟨_, _, h3, h4⟩ | h
      · exact ⟨h3, h4⟩
      · exact ih g.timestamp img dd w hh h
    · rcases hm with ⟨_, _, h3, h4⟩ | h
      · exact ⟨h3, h4⟩
      · exact ih g.timestamp img dd w hh h

/-- Segments classified: insert segments. -/
def isInsertSeg : Segment → Bool
  | .insert _ _ _ _ => true
  | .source _ _ => false

/-- The loop emits exactly one insert segment per processed frame. -/
theorem countP_edlLoop (tw th : ℕ) (d : ℚ) :
    ∀ (l : List InsertFrame) (lt : ℚ),
      (edlLoop tw th d lt l).countP isInsertSeg = l.length := by
  intro l
  induction l with
  | nil => intro lt; rfl
  | cons f rest ih =>
    intro lt
    by_cases hc : lt < f.timestamp <;>
      simp [edlLoop, hc, List.countP_append, List.countP_cons, isInsertSeg, ih]

/-- For a nonempty frame list the loop's output ends with the insert segment
of the last frame. -/
theorem edlLoop_concat_getLast (tw th : ℕ) (d : ℚ)
    (l : List InsertFrame) (f : InsertFrame) (lt : ℚ) :
    (edlLoop tw th d lt (l ++ [f])).getLast?
      = some (Segment.insert f.imageData (jsOrQ f.duration d) tw th) := by
  rw [edlLoop_append]
  by_cases hc : cursorAfter lt l < f.timestamp <;>
    simp [edlLoop, hc, ← List.append_assoc, List.getLast?_concat]

/-- Every bounded source segment emitted by the loop has positive length. -/
theorem edlLoop_source_pos (tw th : ℕ) (d : ℚ) :
    ∀ (l : List InsertFrame) (lt s e : ℚ),
      Segment.source s (some e) ∈ edlLoop tw th d lt l → s < e := by
  intro l
  induction l with
  | nil => intro lt s e hm; cases hm
  | cons f rest ih =>
    intro lt s e hm
    by_cases hc : lt < f.timestamp <;> simp [edlLoop, hc] at hm
    · rcases hm with ⟨hs, he⟩ | h
      · rw [hs, he]; exact hc
      · exact ih f.timestamp s e h
    · exact ih f.timestamp s e hm

/-- A bounded trailing segment of the concat strategy has positive length:
it is only emitted (with a bounded stop) when the cursor sits more than 1 ms
before the known duration. -/
theorem trailingSimple_source_pos (dur : Option ℚ) (lt s e : ℚ)
    (hm : Segment.source s (some e) ∈ trailingSimple dur lt) : s < e := by
  unfold trailingSimple at hm
  split at hm
  · rename_i hcond
    by_cases ht : jsTruthy dur = true
    · simp only [ht, if_true, List.mem_singleton, Segment.source.injEq,
        Option.some.injEq] at hm
      obtain ⟨rfl, he⟩ := hm
      rw [trailingCond, ht] at hcond
      simp only [Bool.not_true, Bool.false_or, decide_eq_true_eq] at hcond
      have hpos : (0 : ℚ) < dur.getD 0 - s := by
        have : (0 : ℚ) < 1/1000 := by norm_num
        linarith
      rw [jsMax, if_neg (by linarith)] at he
      rw [he]
      linarith
    · simp [ht] at hm
  · cases hm

/-- Bounded source segments of the concat-strategy EDL always have positive
length (zero-length segments are never emitted with a known end bound). -/
theorem edlSimple_source_pos (cfg : ExportConfig) (s e : ℚ)
    (hm : Segment.source s (some e) ∈ edlSimple cfg) : s < e := by
  unfold edlSimple at hm
  rcases List.mem_append.mp hm with h | h
  · exact edlLoop_source_pos _ _ _ _ _ _ _ h
  · exact trailingSimple_source_pos _ _ _ _ h

/-! ## Claims C7, C10, C5, C3, C6 -/

/-- Claim C7: normalization sorts events by ascending timestamp with a stable
sort — events with equal timestamps retain their original relative order (the
subsequence of any fixed timestamp is preserved by the sort), the sorted list
is sorted by timestamp, each event becomes its own InsertSegment (their count
equals the event count, in both strategies), two consecutive equal-timestamp
events yield two consecutive InsertSegments with no SourceSegment between
them, and an event at timestamp 0 produces no leading SourceSegment. -/
theorem c7_stable_sort :
    (∀ (l : List InsertFrame) (t : ℚ),
        (sortFrames l).filter (fun f => decide (f.timestamp = t))
          = l.filter (fun f => decide (f.timestamp = t)))
    ∧ (∀ l : List InsertFrame, List.Sorted tsLE (sortFrames l))
    ∧ (∀ cfg : ExportConfig,
        (edlSimple cfg).countP isInsertSeg = cfg.frames.length
        ∧ (edlFrames cfg).countP isInsertSeg = cfg.frames.length)
    ∧ (∀ (tw th : ℕ) (d lt : ℚ) (l1 l2 : List InsertFrame) (e e' : InsertFrame),
        e'.timestamp = e.timestamp →
        edlLoop tw th d lt (l1 ++ e :: e' :: l2)
          = edlLoop tw th d lt (l1 ++ [e])
              ++ Segment.insert e'.imageData (jsOrQ e'.duration d) tw th
                :: edlLoop tw th d e'.timestamp l2)
    ∧ (∀ (cfg : ExportConfig) (f : InsertFrame) (rest : List InsertFrame),
        sortFrames cfg.frames = f :: rest → f.timestamp = 0 →
        (edlSimple cfg).head? = some (Segment.insert f.imageData
          (jsOrQ f.duration cfg.imgDur) cfg.targetW cfg.targetH)) := by
  refine ⟨sortFrames_filter_eq, fun l => List.sorted_insertionSort tsLE l, ?_, ?_, ?_⟩
  · intro cfg
    have hlen : (sortFrames cfg.frames).length = cfg.frames.length :=
      (sortFrames_perm cfg.frames).length_eq
    have htr : (trailingSimple cfg.videoDuration
        (cursorAfter 0 (sortFrames cfg.frames))).countP isInsertSeg = 0 := by
      unfold trailingSimple
      split <;> simp [isInsertSeg]
    constructor
    · unfold edlSimple
      rw [List.countP_append, countP_edlLoop, htr, hlen]
      omega
    · unfold edlFrames
      rw [List.countP_append, countP_edlLoop, hlen]
      simp [List.countP_cons, isInsertSeg]
  · intro tw th d lt l1 l2 e e' he
    rw [edlLoop_append, edlLoop_append]
    have hne : ¬ e.timestamp < e'.timestamp := by rw [he]; exact lt_irrefl _
    simp [edlLoop, hne, cursorAfter]
  · intro cfg f rest hs h0
    unfold edlSimple
    rw [hs]
    have hne : ¬ (0 : ℚ) < f.timestamp := by rw [h0]; exact lt_irrefl _
    simp [edlLoop, hne]

/-- A one-event configuration whose single event sits at timestamp 0. -/
def cfgZero : ExportConfig :=
  { videoUrl := "v", frames := [⟨0, "Z", none, none, none⟩] }

/-- Witness for C7: the stable-sort/EDL properties instantiated on concrete
inputs (the worked example's frame list, and a single event at timestamp 0). -/
theorem c7_stable_sort_witness :
    (sortFrames cfgExample.frames).filter (fun f => decide (f.timestamp = 3))
      = cfgExample.frames.filter (fun f => decide (f.timestamp = 3))
    ∧ edlLoop 1280 720 2 0
        ([] ++ (⟨3, "A", some 2, none, none⟩ : InsertFrame)
            :: (⟨3, "B", some 1, none, none⟩ : InsertFrame) :: [])
        = edlLoop 1280 720 2 0 ([] ++ [(⟨3, "A", some 2, none, none⟩ : InsertFrame)])
            ++ Segment.insert "B" (jsOrQ (some 1) 2) 1280 720 :: edlLoop 1280 720 2 3 []
    ∧ (edlSimple cfgZero).head?
        = some (Segment.insert "Z" (jsOrQ none 2) 1280 720) := by
  refine ⟨c7_stable_sort.1 cfgExample.frames 3, ?_, ?_⟩
  · exact c7_stable_sort.2.2.2.1 1280 720 2 0 [] []
      ⟨3, "A", some 2, none, none⟩ ⟨3, "B", some 1, none, none⟩ rfl
  · exact c7_stable_sort.2.2.2.2 cfgZero ⟨0, "Z", none, none, none⟩ [] rfl rfl

/-- Claim C10: a frame whose `duration` field is present but `0` gets the
configured default `imageDuration` substituted (because `frame.duration ||
imageDuration` tests JS truthiness, not presence), in both export functions:
the frame's emitted InsertSegment carries `imgDur`, not `0`. -/
theorem c10_zero_duration :
    ∀ (cfg : ExportConfig) (f : InsertFrame), f ∈ cfg.frames →
      f.duration = some 0 →
      Segment.insert f.imageData cfg.imgDur cfg.targetW cfg.targetH ∈ edlSimple cfg
      ∧ Segment.insert f.imageData cfg.imgDur cfg.targetW cfg.targetH ∈ edlFrames cfg := by
  intro cfg f hf hd
  have hmem : f ∈ sortFrames cfg.frames := (sortFrames_perm cfg.frames).mem_iff.mpr hf
  have h1 := insert_mem_edlLoop cfg.targetW cfg.targetH cfg.imgDur
    (sortFrames cfg.frames) 0 f hmem
  rw [hd, show jsOrQ (some 0) cfg.imgDur = cfg.imgDur from by simp [jsOrQ]] at h1
  exact ⟨List.mem_append_left _ h1, List.mem_append_left _ h1⟩

/-- A configuration with one frame whose duration is present but zero. -/
def cfgZeroDur : ExportConfig :=
  { videoUrl := "v", frames := [⟨1, "Z", some 0, none, none⟩] }

/-- Witness for C10 at a concrete configuration. -/
theorem c10_zero_duration_witness :
    Segment.insert "Z" cfgZeroDur.imgDur cfgZeroDur.targetW cfgZeroDur.targetH
        ∈ edlSimple cfgZeroDur
    ∧ Segment.insert "Z" cfgZeroDur.imgDur cfgZeroDur.targetW cfgZeroDur.targetH
        ∈ edlFrames cfgZeroDur :=
  c10_zero_duration cfgZeroDur ⟨1, "Z", some 0, none, none⟩
    (List.mem_singleton_self _) rfl

/-- The trailing segment of the concat strategy is never an insert segment. -/
theorem trailingSimple_no_insert (dur : Option ℚ) (lt : ℚ) (img : String)
    (dd : ℚ) (w hh : ℕ) : Segment.insert img dd w hh ∉ trailingSimple dur lt := by
  unfold trailingSimple
  split <;> simp

/-- A configuration whose single event carries its own image dimensions
(640×480) while the source media dimensions are 1920×1080. -/
def cfgDims : ExportConfig :=
  { videoUrl := "v"
    frames := [⟨0, "A", none, some 640, some 480⟩]
    videoWidth := some 1920
    videoHeight := some 1080 }

/-- Concrete evaluation of the EDL for `cfgDims`: the insert segment carries
the configured video dimensions, not the event's own. -/
theorem edl_cfgDims :
    edlSimple cfgDims = [Segment.insert "A" 2 1920 1080, Segment.source 0 none] := by
  norm_num [edlSimple, edlLoop, sortFrames, List.insertionSort, List.orderedInsert,
    cursorAfter, trailingSimple, trailingCond, jsTruthy, jsOrQ, jsMax, jsOrNat,
    ExportConfig.targetW, ExportConfig.targetH, ExportConfig.imgDur, cfgDims, tsLE]

/-- Counterexample to claim C5: for an event with its own
`imageWidth`/`imageHeight` (640×480), the emitted InsertSegment uses the
source media dimensions (1920×1080) instead — the event's own dimensions are
never read by either export function. -/
theorem c5_counterexample :
    edlSimple cfgDims = [Segment.insert "A" 2 1920 1080, Segment.source 0 none]
    ∧ Segment.insert "A" 2 640 480 ∉ edlSimple cfgDims := by
  refine ⟨edl_cfgDims, ?_⟩
  rw [edl_cfgDims]
  simp

/-- Claim C5 (amended): the target dimensions of every InsertSegment, in both
strategies, are resolved from the configured source dimensions
(`videoWidth`/`videoHeight`) when present and nonzero, else from the fallback
1280×720; the event's own `width`/`height` fields are ignored. -/
theorem c5_dims :
    ∀ (cfg : ExportConfig) (img : String) (dd : ℚ) (w hh : ℕ),
      Segment.insert img dd w hh ∈ edlSimple cfg ∨
        Segment.insert img dd w hh ∈ edlFrames cfg →
      w = jsOrNat cfg.videoWidth 1280 ∧ hh = jsOrNat cfg.videoHeight 720 := by
  intro cfg img dd w hh hm
  have key : Segment.insert img dd w hh ∈
      edlLoop cfg.targetW cfg.targetH cfg.imgDur 0 (sortFrames cfg.frames) := by
    rcases hm with h | h
    · rcases List.mem_append.mp h with h1 | h2
      · exact h1
      · exact absurd h2 (trailingSimple_no_insert _ _ _ _ _ _)
    · rcases List.mem_append.mp h with h1 | h2
      · exact h1
      · simp at h2
  exact edlLoop_insert_dims cfg.targetW cfg.targetH cfg.imgDur _ 0 img dd w hh key

/-- Witness for C5 (amended) at the concrete configuration `cfgDims`. -/
theorem c5_dims_witness :
    1920 = jsOrNat cfgDims.videoWidth 1280 ∧ 1080 = jsOrNat cfgDims.videoHeight 720 :=
  c5_dims cfgDims "A" 2 1920 1080
    (Or.inl (by rw [edl_cfgDims]; exact List.mem_cons_self _ _))

/-- A configuration with a known 10 s duration and one event beyond it
(timestamp 12). -/
def cfgLate : ExportConfig :=
  { videoUrl := "v"
    frames := [⟨3, "A", some 2, none, none⟩, ⟨12, "B", some 2, none, none⟩]
    videoDuration := some 10 }

/-- `cfgLate` with the beyond-the-end event removed. -/
def cfgLateDropped : ExportConfig :=
  { videoUrl := "v"
    frames := [⟨3, "A", some 2, none, none⟩]
    videoDuration := some 10 }

/-- Counterexample to claim C3: the event at timestamp 12 ≥ duration 10 is
not dropped — its InsertSegment is emitted (preceded by a source segment
running past the end), and the resulting EDL differs from the EDL built with
that event removed, in both strategies. -/
theorem c3_counterexample :
    edlSimple cfgLate ≠ edlSimple cfgLateDropped
    ∧ Segment.insert "B" 2 1280 720 ∈ edlSimple cfgLate
    ∧ edlFrames cfgLate ≠ edlFrames cfgLateDropped := by
  have h1 : edlSimple cfgLate =
      [Segment.source 0 (some 3), Segment.insert "A" 2 1280 720,
       Segment.source 3 (some 12), Segment.insert "B" 2 1280 720] := by
    norm_num [edlSimple, edlLoop, sortFrames, List.insertionSort, List.orderedInsert,
      cursorAfter, trailingSimple, trailingCond, jsTruthy, jsOrQ, jsMax, jsOrNat,
      ExportConfig.targetW, ExportConfig.targetH, ExportConfig.imgDur, cfgLate, tsLE]
  have h2 : edlSimple cfgLateDropped =
      [Segment.source 0 (some 3), Segment.insert "A" 2 1280 720,
       Segment.source 3 (some 10)] := by
    norm_num [edlSimple, edlLoop, sortFrames, List.insertionSort, List.orderedInsert,
      cursorAfter, trailingSimple, trailingCond, jsTruthy, jsOrQ, jsMax, jsOrNat,
      ExportConfig.targetW, ExportConfig.targetH, ExportConfig.imgDur, cfgLateDropped, tsLE]
  have h3 : edlFrames cfgLate =
      [Segment.source 0 (some 3), Segment.insert "A" 2 1280 720,
       Segment.source 3 (some 12), Segment.insert "B" 2 1280 720,
       Segment.source 12 none] := by
    norm_num [edlFrames, edlLoop, sortFrames, List.insertionSort, List.orderedInsert,
      cursorAfter, jsTruthy, jsOrQ, jsOrNat,
      ExportConfig.targetW, ExportConfig.targetH, ExportConfig.imgDur, cfgLate, tsLE]
  have h4 : edlFrames cfgLateDropped =
      [Segment.source 0 (some 3), Segment.insert "A" 2 1280 720,
       Segment.source 3 none] := by
    norm_num [edlFrames, edlLoop, sortFrames, List.insertionSort, List.orderedInsert,
      cursorAfter, jsTruthy, jsOrQ, jsOrNat,
      ExportConfig.targetW, ExportConfig.targetH, ExportConfig.imgDur, cfgLateDropped, tsLE]
  refine ⟨?_, ?_, ?_⟩
  · rw [h1, h2]; simp
  · rw [h1]; simp
  · rw [h3, h4]; simp

/-- Claim C3 (amended): an event whose timestamp is at or beyond the known
source duration is NOT dropped by normalization — it still contributes its
own InsertSegment to the EDL of both strategies, exactly like any other
event. -/
theorem c3_no_drop :
    ∀ (cfg : ExportConfig) (f : InsertFrame) (d : ℚ),
      cfg.videoDuration = some d → f ∈ cfg.frames → d ≤ f.timestamp →
      Segment.insert f.imageData (jsOrQ f.duration cfg.imgDur)
          cfg.targetW cfg.targetH ∈ edlSimple cfg
      ∧ Segment.insert f.imageData (jsOrQ f.duration cfg.imgDur)
          cfg.targetW cfg.targetH ∈ edlFrames cfg := by
  intro cfg f d _ hf _
  have hmem : f ∈ sortFrames cfg.frames := (sortFrames_perm cfg.frames).mem_iff.mpr hf
  have h1 := insert_mem_edlLoop cfg.targetW cfg.targetH cfg.imgDur
    (sortFrames cfg.frames) 0 f hmem
  exact ⟨List.mem_append_left _ h1, List.mem_append_left _ h1⟩

/-- Witness for C3 (amended) at `cfgLate` and its event at timestamp 12. -/
theorem c3_no_drop_witness :
    Segment.insert "B" (jsOrQ (some 2) cfgLate.imgDur)
        cfgLate.targetW cfgLate.targetH ∈ edlSimple cfgLate
    ∧ Segment.insert "B" (jsOrQ (some 2) cfgLate.imgDur)
        cfgLate.targetW cfgLate.targetH ∈ edlFrames cfgLate :=
  c3_no_drop cfgLate ⟨12, "B", some 2, none, none⟩ 10 rfl
    (by simp [cfgLate]) (by norm_num)

/-- A configuration whose single event sits exactly at the known source end
(timestamp 10 = duration 10). -/
def cfgBoundary : ExportConfig :=
  { videoUrl := "v"
    frames := [⟨10, "A", some 2, none, none⟩]
    videoDuration := some 10 }

/-- Counterexample to claim C6: with known duration 10 and the cursor at 10
after the loop, the claim requires the trailing segment to be omitted; the
filter-graph strategy nevertheless emits it (as a zero-length
`trim=start=10`), while the concat strategy omits it. -/
theorem c6_counterexample :
    (edlFrames cfgBoundary).getLast? = some (Segment.source 10 none)
    ∧ (edlSimple cfgBoundary).getLast? = some (Segment.insert "A" 2 1280 720) := by
  have h1 : edlFrames cfgBoundary =
      [Segment.source 0 (some 10), Segment.insert "A" 2 1280 720,
       Segment.source 10 none] := by
    norm_num [edlFrames, edlLoop, sortFrames, List.insertionSort, List.orderedInsert,
      cursorAfter, jsTruthy, jsOrQ, jsOrNat,
      ExportConfig.targetW, ExportConfig.targetH, ExportConfig.imgDur, cfgBoundary, tsLE]
  have h2 : edlSimple cfgBoundary =
      [Segment.source 0 (some 10), Segment.insert "A" 2 1280 720] := by
    norm_num [edlSimple, edlLoop, sortFrames, List.insertionSort, List.orderedInsert,
      cursorAfter, trailingSimple, trailingCond, jsTruthy, jsOrQ, jsMax, jsOrNat,
      ExportConfig.targetW, ExportConfig.targetH, ExportConfig.imgDur, cfgBoundary, tsLE]
  rw [h1, h2]
  exact ⟨rfl, rfl⟩

/-- Claim C6 (amended): in the concat strategy the trailing segment follows
the stated rule — emitted exactly when the duration is falsy or the cursor is
more than 1 ms below it (`trailingCond`), never as a zero-length bounded
segment (every bounded source segment has positive length); in the
filter-graph strategy the configured duration is ignored and the trailing
segment is always emitted with a deferred end bound, even when the cursor is
at or past the known end. -/
theorem c6_trailing :
    (∀ (cfg : ExportConfig) (s e : ℚ),
        Segment.source s (some e) ∈ edlSimple cfg → s < e)
    ∧ (∀ (cfg : ExportConfig) (l : List InsertFrame) (f : InsertFrame),
        sortFrames cfg.frames = l ++ [f] →
        trailingCond cfg.videoDuration f.timestamp = false →
        (edlSimple cfg).getLast? = some (Segment.insert f.imageData
          (jsOrQ f.duration cfg.imgDur) cfg.targetW cfg.targetH))
    ∧ (∀ (cfg : ExportConfig) (l : List InsertFrame) (f : InsertFrame),
        sortFrames cfg.frames = l ++ [f] →
        trailingCond cfg.videoDuration f.timestamp = true →
        (edlSimple cfg).getLast? = some (Segment.source f.timestamp
          (if jsTruthy cfg.videoDuration then
            some (f.timestamp + jsMax (cfg.videoDuration.getD 0 - f.timestamp) 0)
          else none)))
    ∧ (∀ cfg : ExportConfig,
        (edlFrames cfg).getLast?
          = some (Segment.source (cursorAfter 0 (sortFrames cfg.frames)) none)) := by
  refine ⟨edlSimple_source_pos, ?_, ?_, ?_⟩
  · intro cfg l f hs hcond
    unfold edlSimple
    rw [hs, cursorAfter_concat]
    rw [show trailingSimple cfg.videoDuration f.timestamp = [] from by
      unfold trailingSimple; rw [hcond]; rfl]
    rw [List.append_nil]
    exact edlLoop_concat_getLast _ _ _ _ _ _
  · intro cfg l f hs hcond
    unfold edlSimple
    rw [hs, cursorAfter_concat]
    rw [show trailingSimple cfg.videoDuration f.timestamp
        = [Segment.source f.timestamp
            (if jsTruthy cfg.videoDuration then
              some (f.timestamp + jsMax (cfg.videoDuration.getD 0 - f.timestamp) 0)
            else none)] from by
      unfold trailingSimple; rw [hcond]; rfl]
    exact List.getLast?_concat _
  · intro cfg
    unfold edlFrames
    exact List.getLast?_concat _

/-- Witness for C6 (amended): the omission branch applied at `cfgBoundary`. -/
theorem c6_trailing_witness :
    (edlSimple cfgBoundary).getLast?
      = some (Segment.insert "A" (jsOrQ (some 2) cfgBoundary.imgDur)
          cfgBoundary.targetW cfgBoundary.targetH) :=
  c6_trailing.2.1 cfgBoundary [] ⟨10, "A", some 2, none, none⟩ rfl
    (by norm_num [trailingCond, jsTruthy, cfgBoundary])

/-! ## Engine-operation traces

The I/O behaviour of the two export functions is embedded as the straight-line
sequence of engine calls each performs (`fetchFile`, `ff.writeFile`,
`ff.exec`, `ff.readFile`, `ff.deleteFile`).  Since neither function has a
`finally` block, a failing call lands in the single `catch`, which logs and
rethrows: execution simply stops at the first failing call.  The only
exception is the per-segment `deleteFile` loop of `exportVideoSimple`
(lines 437–443), whose body is wrapped in its own `try { } catch { }` that
swallows the error; those deletes are marked `swallowErr := true`. -/

/-- One engine call.  `exec outs` is an `ff.exec` invocation that writes the
artifact files named in `outs` into the engine's working storage. -/
inductive FFOp where
  | fetch (url : String)
  | writeFile (nm : String)
  | exec (outs : List String)
  | readFile (nm : String)
  | deleteFile (nm : String) (swallowErr : Bool)
deriving DecidableEq

/-- Does a failure of this call get swallowed (per-segment delete wrapped in
its own `try`/`catch`) rather than aborting the export? -/
def opSwallows : FFOp → Bool
  | .deleteFile _ true => true
  | _ => false

/-- Artifacts staged into the engine's storage by one call. -/
def opStaged : FFOp → List String
  | .writeFile nm => [nm]
  | .exec outs => outs
  | _ => []

/-- Artifacts released by one call. -/
def opDeleted : FFOp → List String
  | .deleteFile nm _ => [nm]
  | _ => []

/-- All artifact names staged by a call sequence, in order. -/
def stagedNames : List FFOp → List String
  | [] => []
  | op :: rest => opStaged op ++ stagedNames rest

/-- All artifact names released by a call sequence, in order. -/
def deletedNames : List FFOp → List String
  | [] => []
  | op :: rest => opDeleted op ++ deletedNames rest

/-- Unfolding equation: staged names of a cons. -/
theorem stagedNames_cons (op : FFOp) (ops : List FFOp) :
    stagedNames (op :: ops) = opStaged op ++ stagedNames ops := rfl

/-- Unfolding equation: staged names of the empty sequence. -/
theorem stagedNames_nil : stagedNames [] = [] := rfl

/-- Unfolding equation: released names of a cons. -/
theorem deletedNames_cons (op : FFOp) (ops : List FFOp) :
    deletedNames (op :: ops) = opDeleted op ++ deletedNames ops := rfl

/-- Unfolding equation: released names of the empty sequence. -/
theorem deletedNames_nil : deletedNames [] = [] := rfl

/-- Run a straight-line call sequence against an engine-failure oracle: the
n-th Boolean of `fs` says whether the n-th attempted call fails (a missing
entry means success).  A failing call whose error is not swallowed aborts the
run (the `catch` block rethrows — there is no `finally`); a swallowed failure
continues.  Returns the attempted calls and whether the run succeeded. -/
def runExport : List FFOp → List Bool → List FFOp × Bool
  | [], _ => ([], true)
  | op :: rest, fs =>
    if fs.headD false && !(opSwallows op) then ([op], false)
    else
      let r := runExport rest fs.tail
      (op :: r.1, r.2)

/-- `seg_v${i}.mp4` (line 343). -/
def segName (i : ℕ) : String := "seg_v" ++ toString i ++ ".mp4"

/-- `seg_img${i}.mp4` (line 360). -/
def imgSegName (i : ℕ) : String := "seg_img" ++ toString i ++ ".mp4"

/-- `img_${i}.jpg` (line 320). -/
def imgName (i : ℕ) : String := "img_" ++ toString i ++ ".jpg"

/-- `frame_${i}.jpg` (line 148). -/
def frameName (i : ℕ) : String := "frame_" ++ toString i ++ ".jpg"

/-- Engine calls issued by the per-frame loop of `exportVideoSimple`
(lines 335–380): an extract-encode `exec` for the preceding source span when
the cursor moved, then an image-to-video `exec`, per frame. -/
def simpleLoopOps : ℚ → ℕ → List InsertFrame → List FFOp
  | _, _, [] => []
  | lt, i, f :: rest =>
    (if lt < f.timestamp then [FFOp.exec [segName i]] else [])
      ++ FFOp.exec [imgSegName i] :: simpleLoopOps f.timestamp (i + 1) rest

/-- The `segments` array built by that loop (lines 355 and 377), in order. -/
def simpleLoopSegs : ℚ → ℕ → List InsertFrame → List String
  | _, _, [] => []
  | lt, i, f :: rest =>
    (if lt < f.timestamp then [segName i] else [])
      ++ imgSegName i :: simpleLoopSegs f.timestamp (i + 1) rest

/-- The trailing `seg_final.mp4` artifact (lines 383–402), present exactly
when the trailing segment is emitted. -/
def simpleFinalSegs (cfg : ExportConfig) : List String :=
  if trailingCond cfg.videoDuration (cursorAfter 0 (sortFrames cfg.frames))
  then ["seg_final.mp4"] else []

/-- The full `segments` array of `exportVideoSimple` at cleanup time. -/
def simpleSegs (cfg : ExportConfig) : List String :=
  simpleLoopSegs 0 0 (sortFrames cfg.frames) ++ simpleFinalSegs cfg

/-- Engine calls of `exportVideoSimple` before its cleanup block
(lines 306–427): fetch the source, stage it, probe it, stage the images, run
the per-frame segment encodes, the optional final segment encode, stage the
concat list, run the concatenation, read the output. -/
def simplePre (cfg : ExportConfig) : List FFOp :=
  [FFOp.fetch cfg.videoUrl, FFOp.writeFile "input.mp4", FFOp.exec []]
    ++ (List.range (sortFrames cfg.frames).length).map
        (fun i => FFOp.writeFile (imgName i))
    ++ simpleLoopOps 0 0 (sortFrames cfg.frames)
    ++ (simpleFinalSegs cfg).map (fun s => FFOp.exec [s])
    ++ [FFOp.writeFile "concat.txt", FFOp.exec [cfg.outName],
        FFOp.readFile cfg.outName]

/-- Cleanup block of `exportVideoSimple` (lines 431–444): delete the input,
the concat list, the images, the segments (each wrapped in its own
`try`/`catch`), and the output. -/
def simpleCleanup (cfg : ExportConfig) : List FFOp :=
  FFOp.deleteFile "input.mp4" false :: FFOp.deleteFile "concat.txt" false
    :: (List.range (sortFrames cfg.frames).length).map
        (fun i => FFOp.deleteFile (imgName i) false)
    ++ (simpleSegs cfg).map (fun s => FFOp.deleteFile s true)
    ++ [FFOp.deleteFile cfg.outName false]

/-- The complete straight-line call sequence of `exportVideoSimple`. -/
def simpleOps (cfg : ExportConfig) : List FFOp :=
  simplePre cfg ++ simpleCleanup cfg

/-- Engine calls of `exportVideoWithFrames` before its cleanup block
(lines 138–253): fetch, stage input, stage the frame images, probe, run the
single filter-graph invocation, read the output. -/
def framesPre (cfg : ExportConfig) : List FFOp :=
  [FFOp.fetch cfg.videoUrl, FFOp.writeFile "input.mp4"]
    ++ (List.range (sortFrames cfg.frames).length).map
        (fun i => FFOp.writeFile (frameName i))
    ++ [FFOp.exec [], FFOp.exec [cfg.outName], FFOp.readFile cfg.outName]

/-- Cleanup block of `exportVideoWithFrames` (lines 257–262): delete the
input, the frame images, and the output — none of these deletes has its own
error handler. -/
def framesCleanup (cfg : ExportConfig) : List FFOp :=
  FFOp.deleteFile "input.mp4" false
    :: (List.range (sortFrames cfg.frames).length).map
        (fun i => FFOp.deleteFile (frameName i) false)
    ++ [FFOp.deleteFile cfg.outName false]

/-- The complete straight-line call sequence of `exportVideoWithFrames`. -/
def framesOps (cfg : ExportConfig) : List FFOp :=
  framesPre cfg ++ framesCleanup cfg

/-- Terminal outcome of one export invocation. -/
inductive ExportOutcome where
  | emptyInputError
  | exportFailed
  | ok
deriving DecidableEq

/-- `exportVideoSimple` as outcome plus attempted-call trace: the empty-list
guard (line 294) throws before any engine call; otherwise the straight-line
call sequence runs against the failure oracle and a failure is rethrown as
the generic export error (line 451). -/
def exportSimple (cfg : ExportConfig) (fs : List Bool) :
    ExportOutcome × List FFOp :=
  if cfg.frames.isEmpty then (.emptyInputError, [])
  else
    let r := runExport (simpleOps cfg) fs
    (if r.2 then .ok else .exportFailed, r.1)

/-- `exportVideoWithFrames` as outcome plus attempted-call trace (empty-list
guard at line 122, rethrow at line 270). -/
def exportFrames (cfg : ExportConfig) (fs : List Bool) :
    ExportOutcome × List FFOp :=
  if cfg.frames.isEmpty then (.emptyInputError, [])
  else
    let r := runExport (framesOps cfg) fs
    (if r.2 then .ok else .exportFailed, r.1)

/-! ### Lemmas about traces -/

/-- Unfolding equation for `runExport` on a cons. -/
theorem runExport_cons (op : FFOp) (rest : List FFOp) (fs : List Bool) :
    runExport (op :: rest) fs =
      if fs.headD false && !(opSwallows op) then ([op], false)
      else (op :: (runExport rest fs.tail).1, (runExport rest fs.tail).2) := rfl

/-- With no injected failures the whole call sequence runs and succeeds. -/
theorem runExport_all_ok : ∀ ops : List FFOp, runExport ops [] = (ops, true) := by
  intro ops
  induction ops with
  | nil => rfl
  | cons op rest ih => simp [runExport_cons, ih]

/-- If the run fails within a prefix, the suffix is never reached. -/
theorem runExport_append_of_fail :
    ∀ (A B : List FFOp) (fs : List Bool), (runExport A fs).2 = false →
      runExport (A ++ B) fs = runExport A fs := by
  intro A
  induction A with
  | nil => intro B fs h; simp [runExport] at h
  | cons op rest ih =>
    intro B fs h
    rw [runExport_cons] at h
    rw [List.cons_append, runExport_cons, runExport_cons]
    split at h
    · rename_i hc
      rw [if_pos hc, if_pos hc]
    · rename_i hc
      rw [if_neg hc, if_neg hc]
      replace h : (runExport rest fs.tail).2 = false := h
      rw [ih B fs.tail h]

/-- Every attempted call belongs to the call sequence. -/
theorem runExport_trace_mem :
    ∀ (ops : List FFOp) (fs : List Bool) (op : FFOp),
      op ∈ (runExport ops fs).1 → op ∈ ops := by
  intro ops
  induction ops with
  | nil => intro fs op h; simp [runExport] at h
  | cons o rest ih =>
    intro fs op h
    rw [runExport_cons] at h
    split at h
    · replace h : op ∈ [o] := h
      rw [List.mem_singleton.mp h]
      exact List.mem_cons_self _ _
    · replace h : op ∈ o :: (runExport rest fs.tail).1 := h
      rcases List.mem_cons.mp h with h | h
      · rw [h]; exact List.mem_cons_self _ _
      · exact List.mem_cons_of_mem _ (ih fs.tail op h)

/-- A call sequence with no delete calls releases nothing. -/
theorem deletedNames_eq_nil :
    ∀ ops : List FFOp, (∀ op ∈ ops, opDeleted op = []) → deletedNames ops = [] := by
  intro ops
  induction ops with
  | nil => intro _; rfl
  | cons op rest ih =>
    intro h
    simp only [deletedNames, h op (List.mem_cons_self _ _),
      List.nil_append]
    exact ih (fun o ho => h o (List.mem_cons_of_mem _ ho))

/-- `stagedNames` distributes over concatenation. -/
theorem stagedNames_append :
    ∀ A B : List FFOp, stagedNames (A ++ B) = stagedNames A ++ stagedNames B := by
  intro A B
  induction A with
  | nil => rfl
  | cons op rest ih => simp [stagedNames, ih]

/-- `deletedNames` distributes over concatenation. -/
theorem deletedNames_append :
    ∀ A B : List FFOp, deletedNames (A ++ B) = deletedNames A ++ deletedNames B := by
  intro A B
  induction A with
  | nil => rfl
  | cons op rest ih => simp [deletedNames, ih]

/-- A call sequence with empty `deletedNames` consists of non-delete calls. -/
theorem opDeleted_of_deletedNames_nil :
    ∀ ops : List FFOp, deletedNames ops = [] → ∀ op ∈ ops, opDeleted op = [] := by
  intro ops
  induction ops with
  | nil => intro _ op h; cases h
  | cons o rest ih =>
    intro h op hop
    replace h : opDeleted o ++ deletedNames rest = [] := h
    rcases List.append_eq_nil.mp h with ⟨h1, h2⟩
    rcases List.mem_cons.mp hop with h3 | h3
    · rw [h3]; exact h1
    · exact ih h2 op h3

/-- The artifacts staged by the per-frame loop are exactly its `segments`. -/
theorem stagedNames_simpleLoopOps :
    ∀ (l : List InsertFrame) (lt : ℚ) (i : ℕ),
      stagedNames (simpleLoopOps lt i l) = simpleLoopSegs lt i l := by
  intro l
  induction l with
  | nil => intro lt i; rfl
  | cons f rest ih =>
    intro lt i
    by_cases hc : lt < f.timestamp <;>
      simp [simpleLoopOps, simpleLoopSegs, hc, stagedNames, opStaged,
        stagedNames_append, ih]

/-- `deletedNames` of a block of staging writes is empty. -/
theorem deletedNames_map_write (g : ℕ → String) :
    ∀ L : List ℕ, deletedNames (L.map fun i => FFOp.writeFile (g i)) = [] := by
  intro L
  induction L with
  | nil => rfl
  | cons a as ih => simp [deletedNames, opDeleted, ih]

/-- `deletedNames` of a block of per-segment `exec` calls is empty. -/
theorem deletedNames_map_exec :
    ∀ L : List String, deletedNames (L.map fun s => FFOp.exec [s]) = [] := by
  intro L
  induction L with
  | nil => rfl
  | cons a as ih => simp [deletedNames, opDeleted, ih]

/-- The per-frame loop issues no delete calls. -/
theorem deletedNames_simpleLoopOps :
    ∀ (l : List InsertFrame) (lt : ℚ) (i : ℕ),
      deletedNames (simpleLoopOps lt i l) = [] := by
  intro l
  induction l with
  | nil => intro lt i; rfl
  | cons f rest ih =>
    intro lt i
    by_cases hc : lt < f.timestamp <;>
      simp [simpleLoopOps, hc, deletedNames, opDeleted, deletedNames_append, ih]

/-- `exportVideoSimple` issues no delete call before its cleanup block. -/
theorem deletedNames_simplePre (cfg : ExportConfig) :
    deletedNames (simplePre cfg) = [] := by
  unfold simplePre
  rw [deletedNames_append, deletedNames_append, deletedNames_append,
    deletedNames_append, deletedNames_map_write, deletedNames_simpleLoopOps,
    deletedNames_map_exec]
  rfl

/-- `exportVideoWithFrames` issues no delete call before its cleanup block. -/
theorem deletedNames_framesPre (cfg : ExportConfig) :
    deletedNames (framesPre cfg) = [] := by
  unfold framesPre
  rw [deletedNames_append, deletedNames_append, deletedNames_map_write]
  rfl

/-- Staged names of a block of staging writes. -/
theorem stagedNames_map_write (g : ℕ → String) :
    ∀ L : List ℕ, stagedNames (L.map fun i => FFOp.writeFile (g i)) = L.map g := by
  intro L
  induction L with
  | nil => rfl
  | cons a as ih => simp [stagedNames, opStaged, ih]

/-- Staged names of a block of per-segment `exec` calls. -/
theorem stagedNames_map_exec :
    ∀ L : List String, stagedNames (L.map fun s => FFOp.exec [s]) = L := by
  intro L
  induction L with
  | nil => rfl
  | cons a as ih => simp [stagedNames, opStaged, ih]

/-- Released names of a block of unguarded deletes. -/
theorem deletedNames_map_delete (g : ℕ → String) :
    ∀ L : List ℕ,
      deletedNames (L.map fun i => FFOp.deleteFile (g i) false) = L.map g := by
  intro L
  induction L with
  | nil => rfl
  | cons a as ih => simp [deletedNames, opDeleted, ih]

/-- Released names of the guarded per-segment delete loop. -/
theorem deletedNames_map_delete_swallow :
    ∀ L : List String,
      deletedNames (L.map fun s => FFOp.deleteFile s true) = L := by
  intro L
  induction L with
  | nil => rfl
  | cons a as ih => simp [deletedNames, opDeleted, ih]

/-- The cleanup block of `exportVideoSimple` stages nothing. -/
theorem stagedNames_simpleCleanup (cfg : ExportConfig) :
    stagedNames (simpleCleanup cfg) = [] := by
  unfold simpleCleanup
  have h1 : ∀ L : List ℕ,
      stagedNames (L.map fun i => FFOp.deleteFile (imgName i) false) = [] := by
    intro L
    induction L with
    | nil => rfl
    | cons a as ih => simp [stagedNames_cons, opStaged, ih]
  have h2 : ∀ L : List String,
      stagedNames (L.map fun s => FFOp.deleteFile s true) = [] := by
    intro L
    induction L with
    | nil => rfl
    | cons a as ih => simp [stagedNames_cons, opStaged, ih]
  simp [stagedNames_cons, stagedNames_append, stagedNames_nil, h1, h2, opStaged]

/-- On the all-success path, the multiset of artifact names released by
`exportVideoSimple`'s cleanup equals the multiset of names staged during the
export: every staged artifact is released exactly once. -/
theorem simple_release_perm (cfg : ExportConfig) :
    List.Perm (stagedNames (simpleOps cfg)) (deletedNames (simpleOps cfg)) := by
  rw [List.perm_iff_count]
  intro a
  unfold simpleOps
  rw [stagedNames_append, deletedNames_append, stagedNames_simpleCleanup,
    deletedNames_simplePre, List.append_nil, List.nil_append]
  unfold simplePre simpleCleanup
  rw [stagedNames_append, stagedNames_append, stagedNames_append,
    stagedNames_append, stagedNames_map_write, stagedNames_simpleLoopOps,
    stagedNames_map_exec]
  rw [deletedNames_append, deletedNames_append, deletedNames_cons,
    deletedNames_cons, deletedNames_map_delete, deletedNames_map_delete_swallow]
  unfold simpleSegs
  simp only [stagedNames, deletedNames, opStaged, opDeleted, List.append_nil,
    List.nil_append, List.count_append, List.count_cons, List.count_nil,
    List.count_singleton]
  omega

/-- On the all-success path, the artifact names released by
`exportVideoWithFrames`'s cleanup equal the names staged during the export. -/
theorem frames_release_perm (cfg : ExportConfig) :
    List.Perm (stagedNames (framesOps cfg)) (deletedNames (framesOps cfg)) := by
  rw [List.perm_iff_count]
  intro a
  unfold framesOps
  rw [stagedNames_append, deletedNames_append, deletedNames_framesPre,
    List.nil_append]
  unfold framesPre framesCleanup
  rw [stagedNames_append, stagedNames_append, stagedNames_map_write]
  rw [deletedNames_append, deletedNames_cons, deletedNames_map_delete]
  have h1 : ∀ L : List ℕ,
      stagedNames (L.map fun i => FFOp.deleteFile (frameName i) false) = [] := by
    intro L
    induction L with
    | nil => rfl
    | cons b bs ih => simp [stagedNames, opStaged, ih]
  simp only [stagedNames, deletedNames, opStaged, opDeleted, h1, List.append_eq,
    stagedNames_append, stagedNames_cons, stagedNames_nil, List.append_nil,
    List.nil_append, List.count_append, List.count_cons, List.count_nil,
    List.count_singleton]

/-- If `exportVideoSimple` fails before reaching its cleanup block, no
artifact is released. -/
theorem simple_fail_no_release (cfg : ExportConfig) (fs : List Bool)
    (h : (runExport (simplePre cfg) fs).2 = false) :
    deletedNames (runExport (simpleOps cfg) fs).1 = [] := by
  unfold simpleOps
  rw [runExport_append_of_fail _ _ _ h]
  apply deletedNames_eq_nil
  intro op hop
  exact opDeleted_of_deletedNames_nil _ (deletedNames_simplePre cfg) op
    (runExport_trace_mem _ _ _ hop)

/-- If `exportVideoWithFrames` fails before reaching its cleanup block, no
artifact is released. -/
theorem frames_fail_no_release (cfg : ExportConfig) (fs : List Bool)
    (h : (runExport (framesPre cfg) fs).2 = false) :
    deletedNames (runExport (framesOps cfg) fs).1 = [] := by
  unfold framesOps
  rw [runExport_append_of_fail _ _ _ h]
  apply deletedNames_eq_nil
  intro op hop
  exact opDeleted_of_deletedNames_nil _ (deletedNames_framesPre cfg) op
    (runExport_trace_mem _ _ _ hop)

/-! ## Claims C2, C8, C9 -/

/-- A one-event configuration with known duration, used to drive the trace
model on concrete oracles. -/
def cfgOne : ExportConfig :=
  { videoUrl := "v"
    frames := [⟨3, "A", some 2, none, none⟩]
    videoDuration := some 10 }

/-- Failure oracle that fails the 9th engine call of `exportVideoSimple` on
`cfgOne` — the final concatenation `exec` — and nothing before it. -/
def fsFail : List Bool :=
  [false, false, false, false, false, false, false, false, true]

/-- Counterexample to claim C2: when the concatenation step fails, the export
throws with `input.mp4` (and more) staged in the engine's storage and not a
single release performed — cleanup only exists on the success path, so on
failure staged artifacts are not released at all. -/
theorem c2_counterexample :
    (exportSimple cfgOne fsFail).1 = ExportOutcome.exportFailed
    ∧ deletedNames (exportSimple cfgOne fsFail).2 = []
    ∧ "input.mp4" ∈ stagedNames (exportSimple cfgOne fsFail).2 := by
  have hops : simpleOps cfgOne =
      [FFOp.fetch "v", FFOp.writeFile "input.mp4", FFOp.exec [],
       FFOp.writeFile (imgName 0), FFOp.exec [segName 0], FFOp.exec [imgSegName 0],
       FFOp.exec ["seg_final.mp4"], FFOp.writeFile "concat.txt",
       FFOp.exec ["itgen_video.mp4"], FFOp.readFile "itgen_video.mp4",
       FFOp.deleteFile "input.mp4" false, FFOp.deleteFile "concat.txt" false,
       FFOp.deleteFile (imgName 0) false, FFOp.deleteFile (segName 0) true,
       FFOp.deleteFile (imgSegName 0) true, FFOp.deleteFile "seg_final.mp4" true,
       FFOp.deleteFile "itgen_video.mp4" false] := by
    norm_num [simpleOps, simplePre, simpleCleanup, simpleLoopOps, simpleLoopSegs,
      simpleSegs, simpleFinalSegs, sortFrames, List.insertionSort,
      List.orderedInsert, trailingCond, jsTruthy, cursorAfter, cfgOne,
      ExportConfig.outName, List.range_succ, List.range_zero]
  have hrun : runExport (simpleOps cfgOne) fsFail =
      ([FFOp.fetch "v", FFOp.writeFile "input.mp4", FFOp.exec [],
        FFOp.writeFile (imgName 0), FFOp.exec [segName 0], FFOp.exec [imgSegName 0],
        FFOp.exec ["seg_final.mp4"], FFOp.writeFile "concat.txt",
        FFOp.exec ["itgen_video.mp4"]], false) := by
    rw [hops]
    simp [runExport_cons, runExport, fsFail, opSwallows]
  have hne : cfgOne.frames.isEmpty = false := rfl
  refine ⟨?_, ?_, ?_⟩
  · simp [exportSimple, hne, hrun]
  · simp [exportSimple, hne, hrun, deletedNames_cons, deletedNames_nil, opDeleted]
  · simp [exportSimple, hne, hrun, stagedNames_cons, stagedNames_nil, opStaged]

/-- Claim C2 (amended): release of staged artifacts happens only on the
success path.  When every engine call succeeds, both export functions
release each staged artifact exactly once (the released-name multiset equals
the staged-name multiset) and succeed; but when any engine call before the
cleanup block fails, the export throws without releasing anything.  (Only the
per-segment deletes of the concat strategy swallow their own errors; every
other release error aborts the remaining cleanup.) -/
theorem c2_cleanup :
    (∀ cfg : ExportConfig,
        runExport (simpleOps cfg) [] = (simpleOps cfg, true)
        ∧ List.Perm (stagedNames (simpleOps cfg)) (deletedNames (simpleOps cfg)))
    ∧ (∀ cfg : ExportConfig,
        runExport (framesOps cfg) [] = (framesOps cfg, true)
        ∧ List.Perm (stagedNames (framesOps cfg)) (deletedNames (framesOps cfg)))
    ∧ (∀ (cfg : ExportConfig) (fs : List Bool),
        (runExport (simplePre cfg) fs).2 = false →
        deletedNames (runExport (simpleOps cfg) fs).1 = [])
    ∧ (∀ (cfg : ExportConfig) (fs : List Bool),
        (runExport (framesPre cfg) fs).2 = false →
        deletedNames (runExport (framesOps cfg) fs).1 = []) :=
  ⟨fun cfg => ⟨runExport_all_ok _, simple_release_perm cfg⟩,
   fun cfg => ⟨runExport_all_ok _, frames_release_perm cfg⟩,
   simple_fail_no_release, frames_fail_no_release⟩

/-- Witness for C2 (amended): the failure clause applied to `cfgOne` with the
oracle failing the concatenation step. -/
theorem c2_cleanup_witness :
    deletedNames (runExport (simpleOps cfgOne) fsFail).1 = [] := by
  apply c2_cleanup.2.2.1 cfgOne fsFail
  have hpre : simplePre cfgOne =
      [FFOp.fetch "v", FFOp.writeFile "input.mp4", FFOp.exec [],
       FFOp.writeFile (imgName 0), FFOp.exec [segName 0], FFOp.exec [imgSegName 0],
       FFOp.exec ["seg_final.mp4"], FFOp.writeFile "concat.txt",
       FFOp.exec ["itgen_video.mp4"], FFOp.readFile "itgen_video.mp4"] := by
    norm_num [simplePre, simpleLoopOps, simpleFinalSegs, sortFrames,
      List.insertionSort, List.orderedInsert, trailingCond, jsTruthy, cursorAfter,
      cfgOne, ExportConfig.outName, List.range_succ, List.range_zero]
  rw [hpre]
  simp [runExport_cons, runExport, fsFail, opSwallows]

/-- A configuration containing an event with a negative timestamp. -/
def cfgNeg : ExportConfig :=
  { videoUrl := "v", frames := [⟨-1, "A", none, none, none⟩] }

/-- Counterexample to claim C8: an export whose event list contains a
negative timestamp is not rejected — with a fault-free engine it runs to
success, performing engine I/O, and the negative-timestamp event is emitted
as an InsertSegment. -/
theorem c8_counterexample :
    (exportSimple cfgNeg []).1 = ExportOutcome.ok
    ∧ (exportSimple cfgNeg []).2 ≠ []
    ∧ (exportFrames cfgNeg []).1 = ExportOutcome.ok
    ∧ Segment.insert "A" 2 1280 720 ∈ edlSimple cfgNeg := by
  refine ⟨?_, ?_, ?_, ?_⟩
  · simp [exportSimple, cfgNeg, runExport_all_ok]
  · simp [exportSimple, cfgNeg, runExport_all_ok, simpleOps, simplePre]
  · simp [exportFrames, cfgNeg, runExport_all_ok, framesOps, framesPre]
  · have h : edlSimple cfgNeg =
        [Segment.insert "A" 2 1280 720, Segment.source (-1) none] := by
      norm_num [edlSimple, edlLoop, sortFrames, List.insertionSort,
        List.orderedInsert, cursorAfter, trailingSimple, trailingCond, jsTruthy,
        jsOrQ, jsMax, jsOrNat, ExportConfig.targetW, ExportConfig.targetH,
        ExportConfig.imgDur, cfgNeg, tsLE]
    rw [h]
    exact List.mem_cons_self _ _

/-- Claim C8 (amended): there is no timestamp validation — the only
pre-engine rejection is the empty event list.  An export whose events include
a negative timestamp proceeds to engine I/O (succeeding on a fault-free
engine, in both strategies) and the event is emitted as a normal
InsertSegment. -/
theorem c8_no_validation :
    ∀ (cfg : ExportConfig) (f : InsertFrame), f ∈ cfg.frames → f.timestamp < 0 →
      (exportSimple cfg []).1 = ExportOutcome.ok
      ∧ (exportFrames cfg []).1 = ExportOutcome.ok
      ∧ Segment.insert f.imageData (jsOrQ f.duration cfg.imgDur)
          cfg.targetW cfg.targetH ∈ edlSimple cfg := by
  intro cfg f hf _
  have hne : cfg.frames.isEmpty = false := by
    cases hcf : cfg.frames
    · rw [hcf] at hf; cases hf
    · rfl
  refine ⟨?_, ?_, ?_⟩
  · simp [exportSimple, hne, runExport_all_ok]
  · simp [exportFrames, hne, runExport_all_ok]
  · have hmem : f ∈ sortFrames cfg.frames :=
      (sortFrames_perm cfg.frames).mem_iff.mpr hf
    exact List.mem_append_left _
      (insert_mem_edlLoop cfg.targetW cfg.targetH cfg.imgDur _ 0 f hmem)

/-- Witness for C8 (amended) at `cfgNeg`. -/
theorem c8_no_validation_witness :
    (exportSimple cfgNeg []).1 = ExportOutcome.ok
    ∧ (exportFrames cfgNeg []).1 = ExportOutcome.ok
    ∧ Segment.insert "A" (jsOrQ none cfgNeg.imgDur)
        cfgNeg.targetW cfgNeg.targetH ∈ edlSimple cfgNeg :=
  c8_no_validation cfgNeg ⟨-1, "A", none, none, none⟩
    (List.mem_singleton_self _) (by norm_num)

/-- Claim C9: with an empty event list, both export entry points throw the
empty-input error before performing any engine call — the trace is empty, so
nothing is staged. -/
theorem c9_empty_rejected :
    ∀ (cfg : ExportConfig) (fs : List Bool), cfg.frames = [] →
      exportSimple cfg fs = (ExportOutcome.emptyInputError, [])
      ∧ exportFrames cfg fs = (ExportOutcome.emptyInputError, []) := by
  intro cfg fs h
  constructor
  · simp [exportSimple, h]
  · simp [exportFrames, h]

/-- The empty configuration. -/
def cfgEmpty : ExportConfig := { videoUrl := "v", frames := [] }

/-- Witness for C9 at the empty configuration. -/
theorem c9_empty_rejected_witness :
    exportSimple cfgEmpty [] = (ExportOutcome.emptyInputError, [])
    ∧ exportFrames cfgEmpty [] = (ExportOutcome.emptyInputError, []) :=
  c9_empty_rejected cfgEmpty [] rfl

/-! ## Claim C4: the progress sequence

`initFFmpeg` registers a `progress` handler (lines 56–59) that forwards each
raw engine progress fraction to the caller's callback as
`Math.round(progress * 100)`.  `exportVideoSimple` additionally reports fixed
milestones 0, (0, 10 while loading), 15, 25, 30, 40, 70, 90, 100 around its
engine calls.  During every `exec` the engine may fire progress events with
fractions in `[0,1]`, which the handler forwards unscaled and unclamped, so a
late-exec report (e.g. fraction 1 at the end of the probe pass) is delivered
as 100 before the next milestone (30) is reported. -/

/-- `Math.round(progress * 100)` of the handler at line 57 (JS `Math.round`
is round-half-up, i.e. `⌊x + 1/2⌋`). -/
def roundPct (q : ℚ) : ℤ := ⌊q * 100 + 1/2⌋

/-- The sequence of percent values delivered to the caller's progress
callback during one successful `exportVideoSimple` run.  `fresh` is true when
this export loads the engine (so `initFFmpeg` reports 0 and 10 and registers
the forwarding handler); `probeRun`, `segRuns` and `concatRun` are the raw
engine progress fractions fired during the probe `exec` (line 313), the
per-segment `exec`s (lines 344–400) and the concatenation `exec` (line 412),
each forwarded through `roundPct`. -/
def simpleProgress (fresh : Bool) (probeRun : List ℚ) (segRuns : List (List ℚ))
    (concatRun : List ℚ) : List ℚ :=
  [0] ++ (if fresh then [0, 10] else [])
    ++ [15, 25] ++ probeRun.map (fun q => (roundPct q : ℚ))
    ++ [30, 40] ++ (segRuns.map (fun r => r.map fun q => (roundPct q : ℚ))).flatten
    ++ [70] ++ concatRun.map (fun q => (roundPct q : ℚ))
    ++ [90, 100]

/-- The last element of a list extended by two entries. -/
theorem getLast_append_pair (X : List ℚ) (a b : ℚ) :
    (X ++ [a, b]).getLast? = some b := by
  rw [show [a, b] = [a] ++ [b] from rfl, ← List.append_assoc,
    List.getLast?_concat]

/-- Counterexample to claim C4: on a fresh engine load, if the engine fires a
progress fraction of 1 at the end of the probe pass (it processes the whole
input, so its progress legitimately reaches 1), the caller sees ..., 25, 100,
30, ... — the delivered percent sequence moves backward. -/
theorem c4_counterexample :
    ¬ List.Chain' (fun a b => a ≤ b) (simpleProgress true [1] [] []) := by
  have h : simpleProgress true [1] [] []
      = [0, 0, 10, 15, 25, 100, 30, 40, 70, 90, 100] := by
    norm_num [simpleProgress, roundPct]
  rw [h]
  intro hc
  simp only [List.chain'_cons, List.chain'_singleton] at hc
  norm_num at hc

/-- Claim C4 (amended): on the success path the final reported value is
exactly 100 regardless of what the engine reports, and the fixed milestone
sequence on its own is monotonically non-decreasing; but raw engine progress
reports are forwarded between milestones unscaled and unclamped, so the
overall delivered sequence is not monotone in general. -/
theorem c4_progress :
    (∀ (fresh : Bool) (probeRun : List ℚ) (segRuns : List (List ℚ))
        (concatRun : List ℚ),
        (simpleProgress fresh probeRun segRuns concatRun).getLast? = some 100)
    ∧ (∀ fresh : Bool,
        List.Chain' (fun a b => a ≤ b) (simpleProgress fresh [] [] [])) := by
  constructor
  · intro fresh probeRun segRuns concatRun
    exact getLast_append_pair _ 90 100
  · intro fresh
    cases fresh <;>
      norm_num [simpleProgress, List.chain'_cons, List.chain'_singleton]

end VideoExport
